import Mathlib

/-!
Verification of the LickHouse guitar-lick editor (Python sources
`src/lick_editor.py` and `src/main.py`) against its natural-language
specification.

The development is a shallow embedding of the program's logic:
* pixel coordinates are modelled as rationals (the program uses Qt floats),
  and Python's `round` (round half to even) is modelled by `pyRound`;
* the note-placement data model (`FretboardView.measures`) is a list of
  measures, each holding a list of placements, a placement being either a
  fretted note or a technique marker;
* stateful editor methods become pure functions on an `EditorState` record;
* file loading/saving (`LickHouseApp.load_lick` / `save_current_lick`) is
  modelled on the parsed-JSON boundary: the outcome of reading and parsing
  the file is a `LoadInput` value (missing file, empty file, malformed
  JSON, non-object root, or a JSON object with optional fields), since the
  JSON parser itself is the Python standard library, not repository code.
-/

/-! ## Python `round`: round half to even, on rationals -/
/-- Python's built-in `round` for a real (here: rational) argument:
nearest integer, ties to the even integer. -/
def pyRound (q : ℚ) : ℤ :=
  let n : ℤ := ⌊q⌋
  let frac : ℚ := q - n
  if frac < 1/2 then n
  else if 1/2 < frac then n + 1
  else if n % 2 = 0 then n else n + 1

/-! ## Fretboard geometry (`FretboardView.__init__`) -/
def string_count : ℕ := 6

def fret_count : ℕ := 12

def string_spacing : ℚ := 30

def fret_spacing : ℚ := 60

def left_margin : ℚ := 40

def top_margin : ℚ := 40

/-- `FretboardView.get_fret_from_x`: nearest fret to an x coordinate,
clamped into `[0, fret_count]`. -/
def get_fret_from_x (x : ℚ) : ℤ :=
  max 0 (min (fret_count : ℤ) (pyRound ((x - left_margin) / fret_spacing)))

/-- The string index computed in `FretboardView.dropEvent`:
`round((pos.y() - top_margin) / string_spacing)`. -/
def stringIdxOfY (y : ℚ) : ℤ :=
  pyRound ((y - top_margin) / string_spacing)

/-- The bounds test of `FretboardView.dropEvent`: the point lies inside the
fretboard rectangle. -/
def inRect (x y : ℚ) : Prop :=
  left_margin ≤ x ∧ x ≤ left_margin + (fret_count : ℚ) * fret_spacing ∧
  top_margin ≤ y ∧ y ≤ top_margin + ((string_count : ℚ) - 1) * string_spacing

instance (x y : ℚ) : Decidable (inRect x y) := by
  unfold inRect; infer_instance

/-! ## Note placements and the pitch table -/
/-- A note placement stored in a measure's `notes` list: either a fretted
note (`{"string": s, "fret": f, "x": x, "y": y}`) or a technique marker
(`{"string": s, "technique": t, "x": x, "y": y}`). -/
inductive Note where
  | fretted (string : ℕ) (fret : ℕ) (x y : ℚ)
  | marker (string : ℕ) (tech : String) (x y : ℚ)
deriving DecidableEq

def Note.xc : Note → ℚ
  | .fretted _ _ x _ => x
  | .marker _ _ x _ => x

def Note.yc : Note → ℚ
  | .fretted _ _ _ y => y
  | .marker _ _ _ y => y

/-- A measure: `{"notes": [...]}`. -/
structure Measure where
  notes : List Note
deriving DecidableEq

/-- `FretboardView.string_notes`: pitch name per string (0 = high E) and
fret (0..12). -/
def string_notes : ℕ → List String
  | 0 => ["E", "F", "F#", "G", "G#", "A", "A#", "B", "C", "C#", "D", "D#", "E"]
  | 1 => ["B", "C", "C#", "D", "D#", "E", "F"] ++ ["F#", "G", "G#", "A", "A#", "B"]
  | 2 => ["G", "G#", "A", "A#", "B", "C", "C#", "D", "D#", "E", "F", "F#", "G"]
  | 3 => ["D", "D#", "E", "F", "F#", "G", "G#"] ++ ["A", "A#", "B", "C", "C#", "D"]
  | 4 => ["A", "A#", "B", "C", "C#", "D", "D#"] ++ ["E", "F", "F#", "G", "G#", "A"]
  | 5 => ["E", "F", "F#", "G", "G#", "A", "A#", "B", "C", "C#", "D", "D#", "E"]
  | _ => []

/-- `FretboardView.get_note_at_position`, parametrised by the capo
position: open strings read the pitch at the capo fret, fretted positions
read `capo + fret`, and a position past the twelfth fret has no pitch
(`None`). List indexing is modelled with `get?`. -/
def get_note_at_position (capo : ℕ) (string_idx fret : ℕ) : Option String :=
  if fret = 0 then (string_notes string_idx).get? capo
  else
    let actual_fret := capo + fret
    if actual_fret ≤ fret_count then (string_notes string_idx).get? actual_fret
    else none

/-! ## Key detection (`FretboardView.detect_key`) -/
/-- The pitch names resolved from the fretted notes of a placement list
(the histogram's underlying multiset): technique markers and placements
whose position has no pitch contribute nothing. -/
def resolvedNames (capo : ℕ) (notes : List Note) : List String :=
  notes.filterMap fun n =>
    match n with
    | .fretted s f _ _ => get_note_at_position capo s f
    | .marker _ _ _ _ => none

/-- `note_counts.get(name, 0)`: histogram entry for one pitch name. -/
def noteCount (capo : ℕ) (notes : List Note) (name : String) : ℕ :=
  (resolvedNames capo notes).count name

/-- The twelve candidate roots, in the iteration order of the
`chord_patterns` dict literal. -/
def chordRoots : List String :=
  ["C", "C#", "D", "D#", "E", "F"] ++ ["F#", "G", "G#", "A", "A#", "B"]

/-- The hard-coded `chord_patterns` table: root, major third, perfect
fifth per root. -/
def triadOf : String → List String
  | "C" => ["C", "E", "G"]
  | "C#" => ["C#", "F", "G#"]
  | "D" => ["D", "F#", "A"]
  | "D#" => ["D#", "G", "A#"]
  | "E" => ["E", "G#", "B"]
  | "F" => ["F", "A", "C"]
  | "F#" => ["F#", "A#", "C#"]
  | "G" => ["G", "B", "D"]
  | "G#" => ["G#", "C", "D#"]
  | "A" => ["A", "C#", "E"]
  | "A#" => ["A#", "D", "F"]
  | "B" => ["B", "D#", "F#"]
  | _ => []

/-- The inner loop `for note in pattern: score += note_counts.get(note, 0)`. -/
def triadScore (capo : ℕ) (notes : List Note) (root : String) : ℕ :=
  (triadOf root).foldl (fun acc nm => acc + noteCount capo notes nm) 0

/-- The `best_key`/`best_score` selection loop of `detect_key`: scan the
candidates, replacing the running best on a strictly greater score. -/
def bestAux (f : String → ℕ) : List String → Option String → ℕ → Option String × ℕ
  | [], bk, bs => (bk, bs)
  | r :: rs, bk, bs => if bs < f r then bestAux f rs (some r) (f r) else bestAux f rs bk bs

/-- `FretboardView.detect_key`. -/
def detect_key (capo : ℕ) (notes : List Note) : String :=
  if notes.isEmpty then "No key detected"
  else
    match (bestAux (triadScore capo notes) chordRoots none 0).1 with
    | some k => "Key of " ++ k
    | none => "No key detected"

/-- Modelled from the claim's words, to be compared with `detect_key`:
score each of the twelve major triads as the sum of the histogram entries
of root, third and fifth; report the triad with the strictly highest
score, ties going to the root listed earlier in the fixed order C..B; if
every score is zero (in particular for an empty placement list or empty
histogram) report no key. -/
def specScore (capo : ℕ) (notes : List Note) (r : String) : ℕ :=
  ((triadOf r).map (noteCount capo notes)).sum

def specMax (capo : ℕ) (notes : List Note) : ℕ :=
  (chordRoots.map (specScore capo notes)).foldr Nat.max 0

def detectKeySpec (capo : ℕ) (notes : List Note) : String :=
  if specMax capo notes = 0 then "No key detected"
  else
    match chordRoots.find? (fun r => specScore capo notes r == specMax capo notes) with
    | some r => "Key of " ++ r
    | none => "No key detected"

/-! ## Note removal (`FretboardView.mousePressEvent`, right button) -/
/-- The hit test of `mousePressEvent`: both coordinate deltas within the
tolerance of 10 units. -/
def hitNote (px py : ℚ) (n : Note) : Bool :=
  decide (|px - n.xc| ≤ 10 ∧ |py - n.yc| ≤ 10)

/-- Python's `list.remove(x)`: drop the first element equal to `x`
(no-op here when absent; the loop only calls it on members). -/
def eraseFirst (a : Note) : List Note → List Note
  | [] => []
  | b :: bs => if b = a then bs else b :: eraseFirst a bs

/-- The deletion loop of `mousePressEvent`:
`for note in notes: if hit: notes.remove(note)`. Python's list iterator
keeps a position `i` into the (mutating) list; the loop runs while
`i < len(notes)`, and `remove` drops the first element equal to the one
read. The fuel argument bounds the number of iterations; `removeLoop`
supplies `notes.length`, which is exact because `i` grows by one per
iteration while the length never grows. -/
def removeLoopF (px py : ℚ) : ℕ → List Note → ℕ → List Note
  | 0, notes, _ => notes
  | fuel + 1, notes, i =>
    if h : i < notes.length then
      let x := notes.get ⟨i, h⟩
      if hitNote px py x then removeLoopF px py fuel (eraseFirst x notes) (i + 1)
      else removeLoopF px py fuel notes (i + 1)
    else notes

/-- The full right-click deletion pass over a measure's notes list. -/
def removeLoop (px py : ℚ) (notes : List Note) : List Note :=
  removeLoopF px py notes.length notes 0

/-- Three placements in one measure: the first and third lie within the
10-unit tolerance of the click point (0,0); the middle one does not. -/
def cexRemoveNotes : List Note :=
  [Note.fretted 0 0 0 0, Note.fretted 1 1 100 0, Note.fretted 2 2 5 0]

/-! ## Editor state and operations (`LickEditor` / `LickHouseApp`) -/
/-- The editing session state: the lick name shown in the title label, the
measures list and current measure index (`FretboardView.measures`,
`FretboardView.current_measure`), the capo position
(`FretboardView.capo_position`), and the note-name display flag
(`FretboardView.show_notes`). -/
structure EditorState where
  name : String
  measures : List Measure
  current : ℕ
  capo : ℕ
  showNotes : Bool
deriving DecidableEq

/-- The state of a freshly constructed editor, before any lick is loaded:
`FretboardView.__init__` sets `measures = []`, `current_measure = 0`,
`capo_position = 0`, `show_notes = False`, and `LickEditor.init_ui` titles
it "New Lick". -/
def initialEditorState : EditorState :=
  { name := "New Lick", measures := [], current := 0, capo := 0, showNotes := false }

/-- Replace the measure at index `i` (used for the in-place mutation
`self.measures[i]["notes"] ...`); an index out of range leaves the list
unchanged — `dropEvent` guards the index, and in `mousePressEvent` an
out-of-range index raises before any mutation, so the list is unchanged
there too. -/
def modifyIdx (l : List Measure) (i : ℕ) (f : Measure → Measure) : List Measure :=
  match l.get? i with
  | some m => l.set i (f m)
  | none => l

/-- The code-point bases of the Unicode decimal-digit (Nd) blocks: each
block holds the digits 0..9 at `base .. base + 9` (Unicode 14, as carried
by CPython's `unicodedata`). These are exactly the characters `int()`
accepts as digits. -/
def decimalDigitBases : List ℕ :=
  [0x30, 0x660, 0x6F0, 0x7C0, 0x966, 0x9E6, 0xA66, 0xAE6, 0xB66, 0xBE6,
   0xC66, 0xCE6, 0xD66, 0xDE6, 0xE50, 0xED0, 0xF20, 0x1040, 0x1090, 0x17E0,
   0x1810, 0x1946, 0x19D0, 0x1A80, 0x1A90, 0x1B50, 0x1BB0, 0x1C40, 0x1C50,
   0xA620, 0xA8D0, 0xA900, 0xA9D0, 0xA9F0, 0xAA50, 0xABF0, 0xFF10, 0x104A0,
   0x10D30, 0x11066, 0x110F0, 0x11136, 0x111D0, 0x112F0, 0x11450, 0x114D0,
   0x11650, 0x116C0, 0x11730, 0x118E0, 0x11950, 0x11C50, 0x11D50, 0x11DA0,
   0x16A60, 0x16AC0, 0x16B50, 0x1D7CE, 0x1D7D8, 0x1D7E2, 0x1D7EC, 0x1D7F6,
   0x1E140, 0x1E2F0, 0x1E950, 0x1FBF0]

/-- The Unicode decimal-digit value of a character, when it has one. -/
def decDigit? (c : Char) : Option ℕ :=
  (decimalDigitBases.find? (fun b => decide (b ≤ c.toNat ∧ c.toNat ≤ b + 9))).map
    (fun b => c.toNat - b)

/-- The test guarding the fret branch of `dropEvent`
(`dropped_text.isdigit()` followed by `int(dropped_text)`): true for a
nonempty string of Unicode decimal digits — exactly the strings `int()`
parses, in any script ("13", "٣", "３", ...). Python's `isdigit` also
accepts a few digit-valued characters that are not decimal digits (such
as "²"); for those `int()` raises ValueError, which aborts the drop
handler before it appends anything, so the editor state ends up exactly
as in the not-a-digit branch and the model folds those payloads into it. -/
def isDigitStr (s : String) : Bool :=
  !s.isEmpty && s.data.all (fun c => (decDigit? c).isSome)

/-- Python's `int(...)` on a decimal-digit string: the base-10 value of
the characters' digit values. -/
def strToNat (s : String) : ℕ :=
  s.data.foldl (fun a c => a * 10 + (decDigit? c).getD 0) 0

/-- The placement appended by `dropEvent`: a technique marker for the
payloads "h", "p", "/", otherwise a fretted note with the parsed fret
number — in both cases recording the string index and the exact drop
coordinates. -/
def droppedNote (text : String) (sIdx : ℕ) (x y : ℚ) : Note :=
  if text = "h" ∨ text = "p" ∨ text = "/" then Note.marker sIdx text x y
  else Note.fretted sIdx (strToNat text) x y

/-- Append a note to the current measure's notes list. -/
def pushNote (st : EditorState) (n : Note) : EditorState :=
  { st with measures := modifyIdx st.measures st.current (fun m => ⟨m.notes ++ [n]⟩) }

/-- `FretboardView.dropEvent`: inside the fretboard rectangle, with a
valid string row, a current measure, and a payload that is a technique
("h"/"p"/"/") or a digit string whose value is at most `fret_count`,
append a new placement to the current measure; otherwise do nothing. -/
def dropEvent (st : EditorState) (text : String) (x y : ℚ) : EditorState :=
  if inRect x y then
    let sIdx := stringIdxOfY y
    if 0 ≤ sIdx ∧ sIdx < (string_count : ℤ) then
      if st.current < st.measures.length then
        if text = "h" ∨ text = "p" ∨ text = "/" then
          pushNote st (Note.marker sIdx.toNat text x y)
        else if isDigitStr text then
          if strToNat text ≤ fret_count then
            pushNote st (Note.fretted sIdx.toNat (strToNat text) x y)
          else st
        else st
      else st
    else st
  else st

/-- `FretboardView.mousePressEvent` (right button): run the deletion loop
over the current measure's notes. -/
def remove_note_click (st : EditorState) (px py : ℚ) : EditorState :=
  { st with
    measures := modifyIdx st.measures st.current (fun m => ⟨removeLoop px py m.notes⟩) }

/-- `FretboardView.set_capo_position`: clamp into `[0, fret_count]`. -/
def clampCapo (p : ℤ) : ℕ :=
  (max 0 (min (fret_count : ℤ) p)).toNat

/-- `FretboardView.load_measure` / `LickEditor.load_measure`: switch the
current measure index if it is in range, otherwise do nothing. -/
def load_measure (st : EditorState) (i : ℕ) : EditorState :=
  if i < st.measures.length then { st with current := i } else st

/-- `LickEditor.previous_measure`. -/
def previous_measure (st : EditorState) : EditorState :=
  if 0 < st.current then load_measure st (st.current - 1) else st

/-- `LickEditor.next_measure`. -/
def next_measure (st : EditorState) : EditorState :=
  if st.current < st.measures.length - 1 then load_measure st (st.current + 1) else st

/-- Python's `list.insert(i, a)`: insert at `i`, clamping `i` to the list
length. -/
def pyInsert (l : List Measure) (i : ℕ) (a : Measure) : List Measure :=
  l.take i ++ a :: l.drop i

/-- `LickEditor.add_measure`: insert an empty measure right after the
current one and move to it. -/
def add_measure (st : EditorState) : EditorState :=
  load_measure { st with measures := pyInsert st.measures (st.current + 1) ⟨[]⟩ }
    (st.current + 1)

/-- `LickEditor.delete_measure`: only with more than one measure and a
confirmed dialog; pop the current measure, move the index back when it
fell off the end, and reload. -/
def delete_measure (st : EditorState) (confirmed : Bool) : EditorState :=
  if 1 < st.measures.length then
    if confirmed then
      let ms := st.measures.eraseIdx st.current
      let idx := if ms.length ≤ st.current then ms.length - 1 else st.current
      load_measure { st with measures := ms } idx
    else st
  else st

/-- `LickEditor.update_capo_position` → `set_capo_position`. -/
def set_capo (st : EditorState) (p : ℤ) : EditorState :=
  { st with capo := clampCapo p }

/-- `LickEditor.toggle_notes` → `FretboardView.toggle_notes`. -/
def toggle_notes (st : EditorState) (b : Bool) : EditorState :=
  { st with showNotes := b }

/-! ## File loading and saving (`LickHouseApp`) -/
/-- A parsed `.lick` JSON object: the three fields the program reads, each
possibly absent. -/
structure LickFile where
  nameField : Option String
  capoField : Option ℤ
  measuresField : Option (List Measure)
deriving DecidableEq

/-- The outcome of reading and parsing a lick file, as classified by
`LickHouseApp.load_lick`: the file can be missing, empty (or whitespace
only), malformed JSON, a JSON value that is not an object, or an object
with optional fields. The reading/parsing itself is the Python standard
library, so it is modelled at this boundary. -/
inductive LoadInput where
  | missingFile
  | emptyFile
  | malformed
  | nonObject
  | object (f : LickFile)
deriving DecidableEq

/-- `os.path.basename` (with `/` as the separator). -/
def pyBasename (p : String) : String :=
  match (p.splitOn "/").getLast? with
  | some s => s
  | none => p

/-- Index of the last `.` in a character list, if any. -/
def lastDotIdx (cs : List Char) : Option ℕ :=
  match cs.reverse.findIdx? (· = '.') with
  | some j => some (cs.length - 1 - j)
  | none => none

/-- The root part of `os.path.splitext`: split at the last dot, provided a
non-dot character precedes it (so names made only of leading dots keep
their "extension"). -/
def pySplitextRoot (s : String) : String :=
  match lastDotIdx s.data with
  | none => s
  | some i => if (s.data.take i).any (fun c => c ≠ '.') then ⟨s.data.take i⟩ else s

/-- `os.path.splitext(os.path.basename(path))[0]`, the fallback lick name. -/
def deriveLoadName (path : String) : String :=
  pySplitextRoot (pyBasename path)

/-- `LickEditor.load_lick`: install name and measures (restoring an empty
measures list to a single empty measure), set the capo only when the file
carried one, and reset to the first measure. The note-display flag is not
touched. -/
def editorLoad (prev : EditorState) (name : String) (capo : Option ℤ)
    (ms : List Measure) : EditorState :=
  { name := name
    measures := if ms.isEmpty then [⟨[]⟩] else ms
    current := 0
    capo := match capo with
      | some c => clampCapo c
      | none => prev.capo
    showNotes := prev.showNotes }

/-- `LickHouseApp.load_lick`: reject missing/empty/malformed/non-object
files with an error (leaving the editor untouched); for an object, default
a missing name from the filename and missing measures to one empty
measure, then hand over to `LickEditor.load_lick`. -/
def load_lick_app (prev : EditorState) (path : String) (inp : LoadInput) :
    Except String EditorState :=
  match inp with
  | .missingFile => .error "File not found"
  | .emptyFile => .error "File is empty"
  | .malformed => .error "Invalid JSON format in lick file"
  | .nonObject => .error "Invalid lick data format"
  | .object f =>
      .ok (editorLoad prev
        (f.nameField.getD (deriveLoadName path))
        f.capoField
        (f.measuresField.getD [⟨[]⟩]))

/-- `LickHouseApp.save_current_lick`: the JSON object written to disk
holds exactly the title label's text as `name` and the fretboard's
measures as `measures`. -/
def saveLick (st : EditorState) : LickFile :=
  { nameField := some st.name, capoField := none, measuresField := some st.measures }

/-! ## The editor as a transition system -/
/-- One user-level operation on the editing session. -/
inductive Op where
  | loadOp (path : String) (inp : LoadInput)
  | dropOp (text : String) (x y : ℚ)
  | removeOp (x y : ℚ)
  | prevOp
  | nextOp
  | addOp
  | deleteOp (confirmed : Bool)
  | capoOp (p : ℤ)
  | toggleOp (b : Bool)

/-- The editor's transition function: a failed load leaves the state
unchanged (the exception handler only reports the error). -/
def step (st : EditorState) : Op → EditorState
  | .loadOp path inp =>
      match load_lick_app st path inp with
      | .ok next => next
      | .error _ => st
  | .dropOp text x y => dropEvent st text x y
  | .removeOp x y => remove_note_click st x y
  | .prevOp => previous_measure st
  | .nextOp => next_measure st
  | .addOp => add_measure st
  | .deleteOp confirmed => delete_measure st confirmed
  | .capoOp p => set_capo st p
  | .toggleOp b => toggle_notes st b

/-- The session invariant of the claim: a nonempty measures list with the
current index in range. -/
def EditorInv (st : EditorState) : Prop :=
  st.measures ≠ [] ∧ st.current < st.measures.length

instance (st : EditorState) : Decidable (EditorInv st) := by
  unfold EditorInv; infer_instance

/-- A session state with one loaded (empty) measure, used as the concrete
state of several witnesses. -/
def loadedStateW : EditorState :=
  { name := "Test", measures := [⟨[]⟩], current := 0, capo := 0, showNotes := false }

/-- A session state with two measures, the second one current, used as the
concrete state of several witnesses. -/
def twoMeasureStateW : EditorState :=
  { name := "Test2", measures := [⟨[]⟩, ⟨[Note.fretted 0 3 100 40]⟩], current := 1,
    capo := 0, showNotes := false }

/-- The lick document of the C1 counterexample: one measure, one note,
capo position 3 in the in-memory model. -/
def savedDocW : EditorState :=
  { name := "My Lick", measures := [⟨[Note.fretted 0 3 100 40]⟩], current := 0,
    capo := 3, showNotes := false }

/-- A parsed lick file with every optional field absent. -/
def emptyLickFileW : LickFile :=
  { nameField := none, capoField := none, measuresField := none }

/-! ## Theorems -/

lemma le_pyRound (n : ℤ) (q : ℚ) (h : (n : ℚ) ≤ q) : n ≤ pyRound q := by
  have hfl : n ≤ ⌊q⌋ := Int.le_floor.mpr h
  unfold pyRound
  dsimp only
  split
  · exact hfl
  · split
    · omega
    · split <;> omega

lemma pyRound_le (n : ℤ) (q : ℚ) (h : q ≤ (n : ℚ)) : pyRound q ≤ n := by
  have hfl : ⌊q⌋ ≤ n := by
    have := Int.floor_le_floor (α := ℚ) h
    simpa using this
  have hfl2 : (⌊q⌋ : ℚ) ≤ q := Int.floor_le q
  unfold pyRound
  dsimp only
  split
  · exact hfl
  · rename_i h1
    push_neg at h1
    have hlt : (⌊q⌋ : ℚ) + 1/2 ≤ q := by linarith
    have : (⌊q⌋ : ℚ) < (n : ℚ) := by linarith
    have hltz : ⌊q⌋ < n := by exact_mod_cast this
    split
    · omega
    · split <;> omega

lemma stringIdxOfY_range (y : ℚ) (h1 : top_margin ≤ y)
    (h2 : y ≤ top_margin + ((string_count : ℚ) - 1) * string_spacing) :
    0 ≤ stringIdxOfY y ∧ stringIdxOfY y ≤ 5 := by
  unfold stringIdxOfY
  have hs : (0 : ℚ) < string_spacing := by norm_num [string_spacing]
  constructor
  · refine le_pyRound 0 _ ?_
    have : (0 : ℚ) ≤ y - top_margin := by linarith
    positivity
  · refine pyRound_le 5 _ ?_
    rw [div_le_iff₀ hs]
    push_cast
    simp only [string_count, string_spacing, top_margin] at h2 ⊢
    norm_num at h2 ⊢
    linarith

lemma foldr_max_init (l : List ℕ) (a b : ℕ) (h : b ≤ a) :
    l.foldr Nat.max a = Nat.max a (l.foldr Nat.max b) := by
  induction l with
  | nil => simp [Nat.max_eq_left h]
  | cons x xs ih =>
    simp only [List.foldr_cons, ih]
    exact Nat.max_left_comm x a _

lemma foldr_max_le (l : List ℕ) (b c : ℕ) (hb : b ≤ c) (h : ∀ x ∈ l, x ≤ c) :
    l.foldr Nat.max b ≤ c := by
  induction l with
  | nil => simpa using hb
  | cons x xs ih =>
    simp only [List.foldr_cons]
    have hx := h x (by simp)
    have hxs := ih (fun z hz => h z (by simp [hz]))
    exact Nat.max_le.mpr ⟨hx, hxs⟩

lemma le_foldr_max (l : List ℕ) (b x : ℕ) (h : x ∈ l) : x ≤ l.foldr Nat.max b := by
  induction l with
  | nil => simp at h
  | cons y ys ih =>
    simp only [List.foldr_cons]
    rcases List.mem_cons.mp h with rfl | h2
    · exact Nat.le_max_left _ _
    · exact le_trans (ih h2) (Nat.le_max_right _ _)

lemma init_le_foldr_max (l : List ℕ) (b : ℕ) : b ≤ l.foldr Nat.max b := by
  induction l with
  | nil => simp
  | cons y ys ih =>
    simp only [List.foldr_cons]
    exact le_trans ih (Nat.le_max_right _ _)

/-- Characterisation of the selection loop: it returns the incoming best
when nothing beats it, and otherwise the first candidate attaining the
overall maximum score. -/
lemma bestAux_fst (f : String → ℕ) (l : List String) : ∀ (bk : Option String) (bs : ℕ),
    (bestAux f l bk bs).1 =
      if ∀ r ∈ l, f r ≤ bs then bk
      else l.find? (fun r => f r == (l.map f).foldr Nat.max bs) := by
  induction l with
  | nil => intro bk bs; simp [bestAux]
  | cons r rs ih =>
    intro bk bs
    have hcons : (List.map f (r :: rs)).foldr Nat.max bs =
        Nat.max (f r) ((List.map f rs).foldr Nat.max bs) := by
      simp only [List.map_cons, List.foldr_cons]
    simp only [bestAux]
    by_cases h : bs < f r
    · rw [if_pos h, ih]
      have hcondfalse : ¬ (∀ x ∈ r :: rs, f x ≤ bs) := by
        intro hall; exact absurd (hall r (by simp)) (by omega)
      rw [if_neg hcondfalse]
      by_cases hall : ∀ x ∈ rs, f x ≤ f r
      · rw [if_pos hall]
        have hle : (List.map f rs).foldr Nat.max bs ≤ f r := by
          refine foldr_max_le _ _ _ (by omega) ?_
          intro x hx
          rcases List.mem_map.mp hx with ⟨z, hz, rfl⟩
          exact hall z hz
        have hM : (List.map f (r :: rs)).foldr Nat.max bs = f r := by
          rw [hcons]; exact Nat.max_eq_left hle
        rw [hM]
        simp [List.find?]
      · rw [if_neg hall]
        push_neg at hall
        rcases hall with ⟨z, hz, hfz⟩
        have hzle : f z ≤ (List.map f rs).foldr Nat.max bs :=
          le_foldr_max _ _ _ (List.mem_map_of_mem f hz)
        have hMgt : f r < (List.map f rs).foldr Nat.max bs := lt_of_lt_of_le hfz hzle
        have hMeq : (List.map f (r :: rs)).foldr Nat.max bs =
            (List.map f rs).foldr Nat.max bs := by
          rw [hcons]; exact Nat.max_eq_right (le_of_lt hMgt)
        have hinit : (List.map f rs).foldr Nat.max (f r) =
            (List.map f rs).foldr Nat.max bs := by
          rw [foldr_max_init _ _ bs (by omega)]
          exact Nat.max_eq_right (le_of_lt hMgt)
        rw [hinit, hMeq]
        conv_rhs => rw [List.find?]
        have hfr_ne : (f r == (List.map f rs).foldr Nat.max bs) = false := by
          simp only [beq_eq_false_iff_ne, ne_eq]
          omega
        rw [hfr_ne]
    · rw [if_neg h, ih]
      push_neg at h
      have hMeq : (List.map f (r :: rs)).foldr Nat.max bs =
          (List.map f rs).foldr Nat.max bs := by
        rw [hcons]
        exact Nat.max_eq_right (le_trans h (init_le_foldr_max _ _))
      by_cases hall : ∀ x ∈ rs, f x ≤ bs
      · rw [if_pos hall, if_pos]
        intro x hx
        rcases List.mem_cons.mp hx with rfl | hx2
        · exact h
        · exact hall x hx2
      · rw [if_neg hall, if_neg]
        · push_neg at hall
          rcases hall with ⟨z, hz, hfz⟩
          have hzle : f z ≤ (List.map f rs).foldr Nat.max bs :=
            le_foldr_max _ _ _ (List.mem_map_of_mem f hz)
          conv_rhs => rw [List.find?]
          have hfr_ne : (f r == (List.map f (r :: rs)).foldr Nat.max bs) = false := by
            rw [hMeq]
            simp only [beq_eq_false_iff_ne, ne_eq]
            omega
          rw [hfr_ne, hMeq]
        · intro hcontra
          push_neg at hall
          rcases hall with ⟨z, hz, hfz⟩
          exact absurd (hcontra z (List.mem_cons_of_mem _ hz)) (by omega)

lemma foldl_add_eq_sum (g : String → ℕ) (l : List String) : ∀ a : ℕ,
    l.foldl (fun acc nm => acc + g nm) a = a + (l.map g).sum := by
  induction l with
  | nil => intro a; simp
  | cons x xs ih =>
    intro a
    simp only [List.foldl_cons, List.map_cons, List.sum_cons, ih]
    omega

lemma triadScore_eq_sum (capo : ℕ) (notes : List Note) (root : String) :
    triadScore capo notes root = ((triadOf root).map (noteCount capo notes)).sum := by
  unfold triadScore
  rw [foldl_add_eq_sum]
  omega

lemma noteCount_nil (capo : ℕ) (name : String) : noteCount capo [] name = 0 := by
  simp [noteCount, resolvedNames]

lemma triadScore_nil (capo : ℕ) (root : String) : triadScore capo [] root = 0 := by
  rw [triadScore_eq_sum]
  have hmap : (triadOf root).map (noteCount capo []) = (triadOf root).map (fun _ => 0) :=
    List.map_congr_left (fun nm _ => noteCount_nil capo nm)
  rw [hmap]
  simp

/-- C3: the key detector builds a histogram of resolvable pitch names of
fretted notes only, scores each of the twelve major triads as
`histogram[root] + histogram[third] + histogram[fifth]`, and reports the
triad with the strictly highest score, ties resolving to the root listed
earlier in the fixed order C, C#, ..., B; with an empty placement list,
an empty histogram, or all-zero scores it reports no key detected.
Formally: `detect_key` (translated from `FretboardView.detect_key`)
coincides with `detectKeySpec` (written from the claim) on every input. -/
theorem detect_key_matches_spec (capo : ℕ) (notes : List Note) :
    detect_key capo notes = detectKeySpec capo notes := by
  have hsc : ∀ r, specScore capo notes r = triadScore capo notes r :=
    fun r => (triadScore_eq_sum capo notes r).symm
  have hmax : specMax capo notes = (chordRoots.map (triadScore capo notes)).foldr Nat.max 0 := by
    unfold specMax
    rw [List.map_congr_left (fun r _ => hsc r)]
  have hfind : (fun r => specScore capo notes r ==
          (chordRoots.map (triadScore capo notes)).foldr Nat.max 0)
      = (fun r => triadScore capo notes r ==
          (chordRoots.map (triadScore capo notes)).foldr Nat.max 0) :=
    funext fun r => by rw [hsc]
  unfold detect_key detectKeySpec
  rw [hmax, hfind]
  by_cases hemp : notes.isEmpty
  · rw [if_pos hemp]
    have hnil : notes = [] := List.isEmpty_iff.mp hemp
    have hzero : ∀ x ∈ chordRoots.map (triadScore capo notes), x ≤ 0 := by
      intro x hx
      rcases List.mem_map.mp hx with ⟨r, _, rfl⟩
      rw [hnil, triadScore_nil]
    have hm0 : (chordRoots.map (triadScore capo notes)).foldr Nat.max 0 = 0 :=
      Nat.le_antisymm (foldr_max_le _ _ _ le_rfl hzero) (Nat.zero_le _)
    rw [hm0]
    simp
  · rw [if_neg hemp]
    rw [bestAux_fst]
    by_cases hall : ∀ r ∈ chordRoots, triadScore capo notes r ≤ 0
    · rw [if_pos hall]
      have hzero : ∀ x ∈ chordRoots.map (triadScore capo notes), x ≤ 0 := by
        intro x hx
        rcases List.mem_map.mp hx with ⟨r, hr, rfl⟩
        exact hall r hr
      have hm0 : (chordRoots.map (triadScore capo notes)).foldr Nat.max 0 = 0 :=
        Nat.le_antisymm (foldr_max_le _ _ _ le_rfl hzero) (Nat.zero_le _)
      rw [hm0]
      simp
    · rw [if_neg hall]
      push_neg at hall
      rcases hall with ⟨z, hz, hfz⟩
      have hzle : triadScore capo notes z ≤
          (chordRoots.map (triadScore capo notes)).foldr Nat.max 0 :=
        le_foldr_max _ _ _ (List.mem_map_of_mem _ hz)
      have hmne : (chordRoots.map (triadScore capo notes)).foldr Nat.max 0 ≠ 0 := by
        omega
      rw [if_neg hmne]

lemma gnap_capo_fret_zero (s c : ℕ) :
    get_note_at_position c s 0 = (string_notes s).get? c := by
  unfold get_note_at_position
  rw [if_pos rfl]

lemma gnap_no_capo (s c : ℕ) (hc : c ≤ 12) :
    get_note_at_position 0 s c = (string_notes s).get? c := by
  unfold get_note_at_position
  by_cases h0 : c = 0
  · subst h0; simp
  · rw [if_neg h0]
    dsimp only
    rw [if_pos (by simp only [fret_count]; omega)]
    norm_num

lemma gnap_capo_fret_pos (s c f : ℕ) (hf : f ≠ 0) :
    get_note_at_position c s f =
      if c + f ≤ 12 then (string_notes s).get? (c + f) else none := by
  unfold get_note_at_position
  rw [if_neg hf]
  dsimp only
  simp only [fret_count]

/-- C4: for a string `s` in `[0,5]` and capo `c` in `[0,12]`, the pitch at
`(s, fret = 0)` with capo `c` equals the non-capo pitch at `(s, c)`; for a
fret `f` in `[1,12]` the pitch at `(s, f)` with capo `c` equals the
non-capo pitch at `(s, c + f)` when `c + f ≤ 12`, and is the no-pitch
result (`none`, not an error) when `c + f` exceeds 12. -/
theorem capo_transposition (s c : ℕ) (hs : s ≤ 5) (hc : c ≤ 12) :
    get_note_at_position c s 0 = get_note_at_position 0 s c ∧
    ∀ f, 1 ≤ f → f ≤ 12 →
      (c + f ≤ 12 → get_note_at_position c s f = get_note_at_position 0 s (c + f)) ∧
      (12 < c + f → get_note_at_position c s f = none) := by
  refine ⟨?_, ?_⟩
  · rw [gnap_capo_fret_zero, gnap_no_capo s c hc]
  · intro f hf1 hf2
    constructor
    · intro hle
      rw [gnap_capo_fret_pos s c f (by omega), if_pos hle, gnap_no_capo s (c + f) hle]
    · intro hgt
      rw [gnap_capo_fret_pos s c f (by omega), if_neg (by omega)]

theorem capo_transposition_witness :
    get_note_at_position 3 0 0 = get_note_at_position 0 0 3 ∧
    get_note_at_position 3 0 2 = get_note_at_position 0 0 (3 + 2) ∧
    get_note_at_position 3 0 10 = none :=
  ⟨(capo_transposition 0 3 (by decide) (by decide)).1,
   ((capo_transposition 0 3 (by decide) (by decide)).2 2 (by decide) (by decide)).1
      (by decide),
   ((capo_transposition 0 3 (by decide) (by decide)).2 10 (by decide) (by decide)).2
      (by decide)⟩

lemma eraseFirst_sublist (a : Note) (l : List Note) : (eraseFirst a l).Sublist l := by
  induction l with
  | nil => simp [eraseFirst]
  | cons b bs ih =>
    unfold eraseFirst
    split
    · exact List.sublist_cons_self b bs
    · exact List.Sublist.cons₂ b ih

lemma eraseFirst_length_of_mem (a : Note) (l : List Note) (h : a ∈ l) :
    (eraseFirst a l).length = l.length - 1 := by
  induction l with
  | nil => simp at h
  | cons b bs ih =>
    unfold eraseFirst
    split
    · simp
    · rename_i hne
      have hmem : a ∈ bs := by
        rcases List.mem_cons.mp h with rfl | h2
        · exact absurd rfl hne
        · exact h2
      have hlen := ih hmem
      have : 0 < bs.length := List.length_pos.mpr (List.ne_nil_of_mem hmem)
      simp only [List.length_cons, hlen]
      omega

lemma eraseFirst_count_ne (a b : Note) (l : List Note) (h : a ≠ b) :
    (eraseFirst b l).count a = l.count a := by
  induction l with
  | nil => rfl
  | cons c cs ih =>
    unfold eraseFirst
    split
    · rename_i hcb
      subst hcb
      rw [List.count_cons_of_ne h]
    · by_cases hca : a = c
      · subst hca
        rw [List.count_cons_self, List.count_cons_self, ih]
      · rw [List.count_cons_of_ne hca, List.count_cons_of_ne hca, ih]

lemma eraseFirst_count_self (a : Note) (l : List Note) (h : a ∈ l) :
    (eraseFirst a l).count a + 1 = l.count a := by
  induction l with
  | nil => simp at h
  | cons c cs ih =>
    unfold eraseFirst
    split
    · rename_i hca
      subst hca
      rw [List.count_cons_self]
    · rename_i hne
      have hmem : a ∈ cs := by
        rcases List.mem_cons.mp h with rfl | h2
        · exact absurd rfl hne
        · exact h2
      have hac : a ≠ c := fun he => hne he.symm
      rw [List.count_cons_of_ne hac, List.count_cons_of_ne hac, ih hmem]

lemma removeLoopF_sublist (px py : ℚ) :
    ∀ (fuel : ℕ) (notes : List Note) (i : ℕ),
      (removeLoopF px py fuel notes i).Sublist notes := by
  intro fuel
  induction fuel with
  | zero => intro notes i; simp [removeLoopF]
  | succ n ih =>
    intro notes i
    unfold removeLoopF
    split
    · dsimp only
      split
      · exact (ih _ _).trans (eraseFirst_sublist _ _)
      · exact ih _ _
    · exact List.Sublist.refl _

lemma removeLoopF_count_ne (px py : ℚ) :
    ∀ (fuel : ℕ) (notes : List Note) (i : ℕ) (a : Note), hitNote px py a = false →
      (removeLoopF px py fuel notes i).count a = notes.count a := by
  intro fuel
  induction fuel with
  | zero => intro notes i a _; simp [removeLoopF]
  | succ n ih =>
    intro notes i a ha
    unfold removeLoopF
    split
    · dsimp only
      split
      · rename_i hlt hhit
        rw [ih _ _ _ ha]
        refine eraseFirst_count_ne _ _ _ ?_
        intro he
        rw [he] at ha
        rw [ha] at hhit
        exact Bool.false_ne_true hhit
      · exact ih _ _ _ ha
    · rfl

lemma removeLoopF_unchanged (px py : ℚ) :
    ∀ (fuel : ℕ) (notes : List Note) (i : ℕ),
      (∀ n ∈ notes, hitNote px py n = false) →
      removeLoopF px py fuel notes i = notes := by
  intro fuel
  induction fuel with
  | zero => intro notes i _; rfl
  | succ n ih =>
    intro notes i hall
    unfold removeLoopF
    split
    · dsimp only
      rename_i hlt
      rw [if_neg ?_, ih _ _ hall]
      rw [hall (notes.get ⟨i, hlt⟩) (notes.get_mem _ _)]
      exact Bool.false_ne_true
    · rfl

lemma find?_first {p : Note → Bool} :
    ∀ (l : List Note) (v : Note), l.find? p = some v →
      ∃ j, ∃ h : j < l.length, l.get ⟨j, h⟩ = v ∧ p v = true ∧
        ∀ k (hk : k < j) (hk2 : k < l.length), p (l.get ⟨k, hk2⟩) = false := by
  intro l
  induction l with
  | nil => intro v h; simp [List.find?] at h
  | cons c cs ih =>
    intro v h
    rw [List.find?] at h
    by_cases hc : p c = true
    · rw [hc] at h
      simp only [Option.some.injEq] at h
      subst h
      exact ⟨0, by simp, rfl, hc, fun k hk _ => absurd hk (Nat.not_lt_zero k)⟩
    · rw [Bool.not_eq_true] at hc
      rw [hc] at h
      rcases ih v h with ⟨j, hj, hget, hpv, hbefore⟩
      refine ⟨j + 1, by simpa using Nat.succ_lt_succ hj, by simpa using hget, hpv, ?_⟩
      intro k hk hk2
      match k with
      | 0 => simpa using hc
      | k + 1 =>
        have : k < j := Nat.lt_of_succ_lt_succ hk
        have hk2c : k < cs.length := by simpa using Nat.lt_of_succ_lt_succ hk2
        simpa using hbefore k this hk2c

lemma removeLoopF_first_removed (px py : ℚ) :
    ∀ (fuel : ℕ) (notes : List Note) (i : ℕ) (v : Note),
      notes.length ≤ fuel + i →
      (∀ j (hj : j < i) (hj2 : j < notes.length), hitNote px py (notes.get ⟨j, hj2⟩) = false) →
      notes.find? (hitNote px py) = some v →
      (removeLoopF px py fuel notes i).count v < notes.count v := by
  intro fuel
  induction fuel with
  | zero =>
    intro notes i v hfuel hpre hfind
    exfalso
    rcases find?_first notes v hfind with ⟨j, hj, hget, hpv, _⟩
    have hf := hpre j (by omega) hj
    rw [hget, hpv] at hf
    simp at hf
  | succ n ih =>
    intro notes i v hfuel hpre hfind
    unfold removeLoopF
    split
    · dsimp only
      rename_i hlt
      by_cases hhit : hitNote px py (notes.get ⟨i, hlt⟩) = true
      · rw [if_pos hhit]
        rcases find?_first notes v hfind with ⟨j, hj, hget, hpv, hbefore⟩
        have hji : j = i := by
          by_cases hlt2 : j < i
          · exact absurd hpv (by rw [← hget]; rw [hpre j hlt2 hj]; exact Bool.false_ne_true)
          · by_cases hgt : i < j
            · exact absurd hhit (by rw [hbefore i hgt hlt]; exact Bool.false_ne_true)
            · omega
        subst hji
        rw [hget] at hhit
        have hveq : notes.get ⟨j, hlt⟩ = v := hget
        rw [hveq]
        have hvmem : v ∈ notes := hget ▸ notes.get_mem _ _
        have hc1 : (eraseFirst v notes).count v + 1 = notes.count v :=
          eraseFirst_count_self v notes hvmem
        have hc2 : (removeLoopF px py n (eraseFirst v notes) (j + 1)).count v ≤
            (eraseFirst v notes).count v :=
          List.Sublist.count_le (removeLoopF_sublist px py n _ _) v
        omega
      · rw [if_neg hhit]
        refine ih notes (i + 1) v (by omega) ?_ hfind
        intro j hj hj2
        by_cases hji : j = i
        · subst hji
          simpa using hhit
        · exact hpre j (by omega) hj2
    · rename_i hge
      exfalso
      rcases find?_first notes v hfind with ⟨j, hj, hget, hpv, _⟩
      have hjf : hitNote px py (notes.get ⟨j, hj⟩) = false := hpre j (by omega) hj
      rw [hget, hpv] at hjf
      simp at hjf

/-- C2 counterexample: the claim says only the first in-tolerance
placement is removed, so clicking (0,0) on `cexRemoveNotes` should leave
the second and third placements. The code's loop keeps iterating over the
mutated list and also removes the third placement (itself in tolerance),
leaving only the middle one. -/
theorem remove_note_counterexample :
    removeLoop 0 0 cexRemoveNotes = [Note.fretted 1 1 100 0] ∧
    removeLoop 0 0 cexRemoveNotes ≠ [Note.fretted 1 1 100 0, Note.fretted 2 2 5 0] := by
  constructor
  · with_unfolding_all decide
  · with_unfolding_all decide

/-- C2 as amended: a right click removes only in-tolerance placements
(the result is an order-preserving sublist of the notes list in which
every out-of-tolerance placement keeps its multiplicity); if no placement
is in tolerance the list is unchanged; and when some placement is in
tolerance, the first such placement is removed — but, because iteration
continues over the mutated list, later in-tolerance placements may be
removed as well. -/
theorem remove_note_amended (px py : ℚ) (notes : List Note) :
    (removeLoop px py notes).Sublist notes ∧
    (∀ a : Note, hitNote px py a = false →
      (removeLoop px py notes).count a = notes.count a) ∧
    ((∀ n ∈ notes, hitNote px py n = false) → removeLoop px py notes = notes) ∧
    (∀ v : Note, notes.find? (hitNote px py) = some v →
      (removeLoop px py notes).count v < notes.count v) := by
  refine ⟨removeLoopF_sublist px py _ _ _,
    fun a ha => removeLoopF_count_ne px py _ _ _ a ha,
    fun hall => removeLoopF_unchanged px py _ _ _ hall,
    fun v hv => removeLoopF_first_removed px py _ _ _ v (by omega) ?_ hv⟩
  intro j hj hj2
  omega

theorem remove_note_amended_witness :
    (removeLoop 0 0 cexRemoveNotes).count (Note.fretted 1 1 100 0) =
      cexRemoveNotes.count (Note.fretted 1 1 100 0) ∧
    (removeLoop 0 0 cexRemoveNotes).count (Note.fretted 0 0 0 0) <
      cexRemoveNotes.count (Note.fretted 0 0 0 0) :=
  ⟨(remove_note_amended 0 0 cexRemoveNotes).2.1 (Note.fretted 1 1 100 0)
      (by with_unfolding_all decide),
   (remove_note_amended 0 0 cexRemoveNotes).2.2.2 (Note.fretted 0 0 0 0)
      (by with_unfolding_all decide)⟩

lemma modifyIdx_length (l : List Measure) (i : ℕ) (f : Measure → Measure) :
    (modifyIdx l i f).length = l.length := by
  unfold modifyIdx
  split
  · simp
  · rfl

/-- C5: `get_fret_from_x` returns `clamp(round((x - left_margin) /
fret_spacing), 0, 12)`, always in `[0, 12]`; for a drop point inside the
fretboard rectangle the computed string index lies in `[0, 5]`; and a drop
outside the rectangle changes nothing (in particular, no measure's notes
list changes). -/
theorem pixel_mapping_safety (x y : ℚ) (st : EditorState) (text : String) :
    (get_fret_from_x x =
        max 0 (min (fret_count : ℤ) (pyRound ((x - left_margin) / fret_spacing))) ∧
      0 ≤ get_fret_from_x x ∧ get_fret_from_x x ≤ 12) ∧
    (inRect x y → 0 ≤ stringIdxOfY y ∧ stringIdxOfY y ≤ 5) ∧
    (¬ inRect x y → dropEvent st text x y = st) := by
  refine ⟨⟨rfl, ?_, ?_⟩, ?_, ?_⟩
  · exact le_max_left 0 _
  · unfold get_fret_from_x
    have h1 : min (fret_count : ℤ) (pyRound ((x - left_margin) / fret_spacing)) ≤
        (fret_count : ℤ) := min_le_left _ _
    refine max_le (by norm_num) (le_trans h1 (by norm_num [fret_count]))
  · intro hin
    exact stringIdxOfY_range y hin.2.2.1 hin.2.2.2
  · intro hout
    unfold dropEvent
    rw [if_neg hout]

theorem pixel_mapping_safety_witness :
    (0 ≤ stringIdxOfY 100 ∧ stringIdxOfY 100 ≤ 5) ∧
    dropEvent initialEditorState "5" 1000 1000 = initialEditorState :=
  ⟨(pixel_mapping_safety 100 100 initialEditorState "5").2.1
      (by with_unfolding_all decide),
   (pixel_mapping_safety 1000 1000 initialEditorState "5").2.2
      (by with_unfolding_all decide)⟩

/-- C6: a drop inside the rectangle whose payload is a fret number in
`[0,12]` or a technique in {"/", "h", "p"} appends a placement recording
the computed string row, the fret or technique, and the exact drop
coordinates, at the end of the current measure's notes list; nothing is
replaced or removed, every other measure is untouched, and the current
index is unchanged. (The current index must point at a measure, which
holds in every session with a loaded lick.) -/
theorem drop_appends_note (st : EditorState) (text : String) (x y : ℚ)
    (hin : inRect x y)
    (hcur : st.current < st.measures.length)
    (hpay : text = "h" ∨ text = "p" ∨ text = "/" ∨
      (isDigitStr text = true ∧ strToNat text ≤ 12)) :
    ∃ m : Measure, st.measures.get? st.current = some m ∧
      (dropEvent st text x y).measures =
        st.measures.set st.current
          ⟨m.notes ++ [droppedNote text ((stringIdxOfY y).toNat) x y]⟩ ∧
      (dropEvent st text x y).measures.get? st.current =
        some ⟨m.notes ++ [droppedNote text ((stringIdxOfY y).toNat) x y]⟩ ∧
      (∀ k, k ≠ st.current → (dropEvent st text x y).measures.get? k =
        st.measures.get? k) ∧
      (dropEvent st text x y).current = st.current := by
  have hrange := stringIdxOfY_range y hin.2.2.1 hin.2.2.2
  have hm : st.measures.get? st.current =
      some (st.measures.get ⟨st.current, hcur⟩) := List.get?_eq_get hcur
  have hdrop : dropEvent st text x y =
      pushNote st (droppedNote text ((stringIdxOfY y).toNat) x y) := by
    unfold dropEvent
    rw [if_pos hin]
    dsimp only
    rw [if_pos ⟨hrange.1, by norm_num [string_count]; omega⟩, if_pos hcur]
    unfold droppedNote
    rcases hpay with h | h | h | h
    · rw [if_pos (Or.inl h), if_pos (Or.inl h)]
    · rw [if_pos (Or.inr (Or.inl h)), if_pos (Or.inr (Or.inl h))]
    · rw [if_pos (Or.inr (Or.inr h)), if_pos (Or.inr (Or.inr h))]
    · have hne : ¬ (text = "h" ∨ text = "p" ∨ text = "/") := by
        rintro (rfl | rfl | rfl) <;> exact absurd h.1 (by decide)
      rw [if_neg hne, if_pos h.1, if_pos (by simpa [fret_count] using h.2), if_neg hne]
  refine ⟨st.measures.get ⟨st.current, hcur⟩, hm, ?_, ?_, ?_, ?_⟩
  · rw [hdrop]
    unfold pushNote modifyIdx
    rw [hm]
  · rw [hdrop]
    unfold pushNote modifyIdx
    rw [hm]
    dsimp only
    exact List.get?_set_eq_of_lt _ (by simpa using hcur)
  · intro k hk
    rw [hdrop]
    unfold pushNote modifyIdx
    rw [hm]
    dsimp only
    exact List.get?_set_ne _ _ (fun he => hk he.symm)
  · rw [hdrop]
    rfl

theorem drop_appends_note_witness :
    (dropEvent loadedStateW "5" 100 100).measures =
      loadedStateW.measures.set loadedStateW.current
        ⟨[droppedNote "5" ((stringIdxOfY 100).toNat) 100 100]⟩ := by
  rcases drop_appends_note loadedStateW "5" 100 100
    (by with_unfolding_all decide) (by decide)
    (Or.inr (Or.inr (Or.inr ⟨by decide, by decide⟩))) with ⟨m, h1, h2, _⟩
  have hm : (⟨[]⟩ : Measure) = m := Option.some.inj h1
  rw [← hm] at h2
  exact h2

/-- C10: a drop inside the rectangle whose payload is neither a technique
string nor a digit string denoting a fret in `[0,12]` (for example "13"
or arbitrary text) creates no placement: the whole editor state, in
particular every measure's notes list, is unchanged. Digit strings are
Unicode decimal digits, as Python's `isdigit`/`int` accept them — a
payload such as "٣" (value 3) is a valid fret and lies outside this
claim's domain, while a digit-valued but non-decimal payload such as "²"
makes `int()` raise and is ignored, as the claim says. -/
theorem drop_invalid_payload_ignored (st : EditorState) (text : String) (x y : ℚ)
    (hin : inRect x y)
    (hne : ¬ (text = "h" ∨ text = "p" ∨ text = "/"))
    (hbad : isDigitStr text = false ∨ 12 < strToNat text) :
    dropEvent st text x y = st := by
  unfold dropEvent
  rw [if_pos hin]
  dsimp only
  split
  · split
    · split
      · rename_i hd
        split
        · rename_i hle
          rcases hbad with hb | hb
          · rw [hd] at hb
            cases hb
          · exfalso
            simp only [fret_count] at hle
            omega
        · rfl
      · rfl
    · rfl
  · rfl

theorem drop_invalid_payload_ignored_witness :
    dropEvent loadedStateW "13" 100 100 = loadedStateW ∧
    dropEvent loadedStateW "²" 100 100 = loadedStateW :=
  ⟨drop_invalid_payload_ignored loadedStateW "13" 100 100
      (by with_unfolding_all decide) (by decide) (Or.inr (by decide)),
   drop_invalid_payload_ignored loadedStateW "²" 100 100
      (by with_unfolding_all decide) (by decide) (Or.inl (by decide))⟩

/-- C7: with exactly one measure, delete-measure is rejected and the state
(document and index) is unchanged; with more than one measure and a
confirmed dialog, the measure at the current index is removed, and the
current index decrements to the new last index when it was the last,
staying put otherwise. -/
theorem delete_measure_spec (st : EditorState) (confirmed : Bool)
    (hcur : st.current < st.measures.length) :
    (st.measures.length = 1 → delete_measure st confirmed = st) ∧
    (1 < st.measures.length → confirmed = true →
      (delete_measure st confirmed).measures = st.measures.eraseIdx st.current ∧
      (st.current = st.measures.length - 1 →
        (delete_measure st confirmed).current = st.measures.length - 2) ∧
      (st.current ≠ st.measures.length - 1 →
        (delete_measure st confirmed).current = st.current)) := by
  constructor
  · intro hone
    unfold delete_measure
    rw [if_neg (by omega)]
  · intro hgt hconf
    subst hconf
    have hlen : (st.measures.eraseIdx st.current).length + 1 = st.measures.length :=
      List.length_eraseIdx_add_one hcur
    unfold delete_measure
    rw [if_pos hgt, if_pos rfl]
    dsimp only
    refine ⟨?_, ?_, ?_⟩
    · unfold load_measure
      split <;> split <;> rfl
    · intro hlast
      rw [if_pos (show (st.measures.eraseIdx st.current).length ≤ st.current by omega)]
      unfold load_measure
      dsimp only
      rw [if_pos (by omega)]
      dsimp only
      omega
    · intro hnotlast
      rw [if_neg (show ¬ (st.measures.eraseIdx st.current).length ≤ st.current by omega)]
      unfold load_measure
      dsimp only
      rw [if_pos (by omega)]

theorem delete_measure_spec_witness :
    delete_measure loadedStateW false = loadedStateW ∧
    (delete_measure twoMeasureStateW true).measures =
      twoMeasureStateW.measures.eraseIdx twoMeasureStateW.current ∧
    (delete_measure twoMeasureStateW true).current = twoMeasureStateW.measures.length - 2 := by
  refine ⟨(delete_measure_spec loadedStateW false (by decide)).1 (by decide), ?_, ?_⟩
  · exact ((delete_measure_spec twoMeasureStateW true (by decide)).2 (by decide) rfl).1
  · exact ((delete_measure_spec twoMeasureStateW true (by decide)).2 (by decide) rfl).2.1
      (by decide)

/-- C1 counterexample: `save_current_lick` writes only `name` and
`measures` — never `capo_position` — so saving a document whose in-memory
capo is 3 and loading the file into a fresh editor yields capo 0: the
loaded document does not equal the saved one. -/
theorem save_load_roundtrip_counterexample :
    saveLick savedDocW =
      LickFile.mk (some "My Lick") none (some [⟨[Note.fretted 0 3 100 40]⟩]) ∧
    (step initialEditorState (.loadOp "My Lick.lick" (.object (saveLick savedDocW)))).capo = 0 ∧
    savedDocW.capo = 3 ∧
    (step initialEditorState (.loadOp "My Lick.lick" (.object (saveLick savedDocW)))).capo ≠
      savedDocW.capo := by
  refine ⟨rfl, rfl, rfl, ?_⟩
  with_unfolding_all decide

/-- C1 as amended: saving and then loading preserves the name and the
measures list exactly (measure count and per-measure placement lists,
order included), but not the capo position: the saved file carries no
`capo_position`, so the loading editor keeps whatever capo it had before
the load. -/
theorem save_load_roundtrip_amended (st prev : EditorState) (path : String)
    (hne : st.measures ≠ []) :
    load_lick_app prev path (.object (saveLick st)) =
      .ok { name := st.name, measures := st.measures, current := 0,
            capo := prev.capo, showNotes := prev.showNotes } := by
  unfold load_lick_app saveLick editorLoad
  dsimp only [Option.getD]
  rw [if_neg (by simpa using hne)]

theorem save_load_roundtrip_amended_witness :
    load_lick_app initialEditorState "x.lick" (.object (saveLick loadedStateW)) =
      .ok { name := loadedStateW.name, measures := loadedStateW.measures, current := 0,
            capo := initialEditorState.capo, showNotes := initialEditorState.showNotes } :=
  save_load_roundtrip_amended loadedStateW initialEditorState "x.lick" (by decide)

/-- C8: loading an object without "name" derives the name from the
filename; one without "measures" defaults to a single empty measure; and a
missing file, empty file, malformed JSON, or non-object top level is
reported as an error with the editor state unchanged. -/
theorem load_defaults_and_errors (prev : EditorState) (path : String) (f : LickFile) :
    (f.nameField = none → ∃ st2, load_lick_app prev path (.object f) = .ok st2 ∧
      st2.name = deriveLoadName path) ∧
    (f.measuresField = none → ∃ st2, load_lick_app prev path (.object f) = .ok st2 ∧
      st2.measures = [⟨[]⟩]) ∧
    (∀ inp, (inp = LoadInput.missingFile ∨ inp = LoadInput.emptyFile ∨
        inp = LoadInput.malformed ∨ inp = LoadInput.nonObject) →
      (∃ msg, load_lick_app prev path inp = .error msg) ∧
      step prev (.loadOp path inp) = prev) := by
  refine ⟨?_, ?_, ?_⟩
  · intro hn
    refine ⟨_, rfl, ?_⟩
    unfold editorLoad
    rw [hn]
    rfl
  · intro hm
    refine ⟨_, rfl, ?_⟩
    unfold editorLoad
    rw [hm]
    rfl
  · rintro inp (rfl | rfl | rfl | rfl) <;> exact ⟨⟨_, rfl⟩, rfl⟩

theorem load_defaults_and_errors_witness :
    (step initialEditorState (.loadOp "Licks/My Lick.lick" (.object emptyLickFileW))).name =
      deriveLoadName "Licks/My Lick.lick" ∧
    (step initialEditorState
      (.loadOp "Licks/My Lick.lick" (.object emptyLickFileW))).measures = [⟨[]⟩] ∧
    step initialEditorState (.loadOp "x.lick" .malformed) = initialEditorState := by
  obtain ⟨st2, heq2, hname⟩ :=
    (load_defaults_and_errors initialEditorState "Licks/My Lick.lick" emptyLickFileW).1 rfl
  obtain ⟨st3, heq3, hms⟩ :=
    (load_defaults_and_errors initialEditorState "Licks/My Lick.lick" emptyLickFileW).2.1 rfl
  refine ⟨?_, ?_,
    ((load_defaults_and_errors initialEditorState "x.lick" emptyLickFileW).2.2
      LoadInput.malformed (Or.inr (Or.inr (Or.inl rfl)))).2⟩
  · show (match load_lick_app initialEditorState "Licks/My Lick.lick"
        (.object emptyLickFileW) with
      | Except.ok next => next
      | Except.error _ => initialEditorState).name =
      deriveLoadName "Licks/My Lick.lick"
    rw [heq2]
    exact hname
  · show (match load_lick_app initialEditorState "Licks/My Lick.lick"
        (.object emptyLickFileW) with
      | Except.ok next => next
      | Except.error _ => initialEditorState).measures = [⟨[]⟩]
    rw [heq3]
    exact hms

lemma editorLoad_inv (prev : EditorState) (name : String) (capo : Option ℤ)
    (ms : List Measure) : EditorInv (editorLoad prev name capo ms) := by
  unfold EditorInv editorLoad
  dsimp only
  constructor
  · split
    · simp
    · rename_i h
      simpa using h
  · split
    · simp
    · rename_i h
      have hne : ms ≠ [] := by simpa using h
      exact List.length_pos.mpr hne

lemma pushNote_inv (st : EditorState) (n : Note) (h : EditorInv st) :
    EditorInv (pushNote st n) := by
  unfold EditorInv pushNote at *
  dsimp only
  have hlen := modifyIdx_length st.measures st.current (fun m => ⟨m.notes ++ [n]⟩)
  refine ⟨?_, by omega⟩
  have hpos : 0 < st.measures.length := List.length_pos.mpr h.1
  exact List.ne_nil_of_length_pos (by omega)

lemma dropEvent_inv (st : EditorState) (text : String) (x y : ℚ)
    (h : EditorInv st) : EditorInv (dropEvent st text x y) := by
  unfold dropEvent
  split
  · dsimp only
    split
    · split
      · split
        · exact pushNote_inv _ _ h
        · split
          · split
            · exact pushNote_inv _ _ h
            · exact h
          · exact h
      · exact h
    · exact h
  · exact h

lemma remove_note_click_inv (st : EditorState) (px py : ℚ) (h : EditorInv st) :
    EditorInv (remove_note_click st px py) := by
  unfold EditorInv remove_note_click at *
  dsimp only
  have hlen := modifyIdx_length st.measures st.current (fun m => ⟨removeLoop px py m.notes⟩)
  refine ⟨?_, by omega⟩
  have hpos : 0 < st.measures.length := List.length_pos.mpr h.1
  exact List.ne_nil_of_length_pos (by omega)

lemma load_measure_inv (st : EditorState) (i : ℕ) (h : EditorInv st) :
    EditorInv (load_measure st i) := by
  unfold load_measure
  split
  · rename_i hi
    exact ⟨h.1, hi⟩
  · exact h

lemma pyInsert_length (l : List Measure) (i : ℕ) (a : Measure) :
    (pyInsert l i a).length = l.length + 1 := by
  unfold pyInsert
  simp only [List.length_append, List.length_cons, List.length_take, List.length_drop]
  omega

lemma add_measure_inv (st : EditorState) (h : EditorInv st) :
    EditorInv (add_measure st) := by
  unfold add_measure
  refine load_measure_inv _ _ ?_
  unfold EditorInv
  dsimp only
  have hlen := pyInsert_length st.measures (st.current + 1) ⟨[]⟩
  have hcur := h.2
  exact ⟨List.ne_nil_of_length_pos (by omega), by omega⟩

lemma delete_measure_inv (st : EditorState) (c : Bool) (h : EditorInv st) :
    EditorInv (delete_measure st c) := by
  unfold delete_measure
  split
  · split
    · rename_i hgt hc
      have hlen : (st.measures.eraseIdx st.current).length + 1 = st.measures.length :=
        List.length_eraseIdx_add_one h.2
      dsimp only
      unfold EditorInv load_measure
      split
      · rename_i hle
        split
        · refine ⟨?_, ?_⟩
          · show st.measures.eraseIdx st.current ≠ []
            exact List.ne_nil_of_length_pos (by omega)
          · show (st.measures.eraseIdx st.current).length - 1 <
              (st.measures.eraseIdx st.current).length
            omega
        · rename_i hr
          exfalso
          apply hr
          show (st.measures.eraseIdx st.current).length - 1 <
            (st.measures.eraseIdx st.current).length
          omega
      · rename_i hnle
        split
        · refine ⟨?_, ?_⟩
          · show st.measures.eraseIdx st.current ≠ []
            exact List.ne_nil_of_length_pos (by omega)
          · show st.current < (st.measures.eraseIdx st.current).length
            omega
        · rename_i hr
          exfalso
          apply hr
          show st.current < (st.measures.eraseIdx st.current).length
          omega
    · exact h
  · exact h

/-- C9 counterexample: the freshly constructed editor is a reachable
state (no operation has happened yet), and its fretboard measures list is
empty with `current_measure = 0`, violating the claimed invariant. -/
theorem editor_invariant_counterexample :
    ¬ EditorInv initialEditorState ∧
    initialEditorState.measures = [] := by
  exact ⟨by decide, rfl⟩

/-- C9 as amended: the invariant (nonempty measures list, current index in
range) is preserved by every operation — load (an error load leaves the
state unchanged, a successful one restores a missing or empty measures
list to one empty measure), place note, remove note, previous/next
(clamped, no wraparound), add measure, delete measure, set capo, toggle
note display — and any successful load establishes it outright; but it
does not hold in every reachable state: the initial editor state, before
the first load, has an empty measures list. -/
theorem editor_invariant_preservation (st : EditorState) (op : Op) (path : String)
    (f : LickFile) :
    (EditorInv st → EditorInv (step st op)) ∧
    EditorInv (step st (.loadOp path (.object f))) := by
  constructor
  · intro h
    cases op with
    | loadOp path2 inp =>
        cases inp with
        | object f2 => exact editorLoad_inv _ _ _ _
        | missingFile => exact h
        | emptyFile => exact h
        | malformed => exact h
        | nonObject => exact h
    | dropOp text x y => exact dropEvent_inv _ _ _ _ h
    | removeOp x y => exact remove_note_click_inv _ _ _ h
    | prevOp =>
        show EditorInv (previous_measure st)
        unfold previous_measure
        split
        · exact load_measure_inv _ _ h
        · exact h
    | nextOp =>
        show EditorInv (next_measure st)
        unfold next_measure
        split
        · exact load_measure_inv _ _ h
        · exact h
    | addOp => exact add_measure_inv _ h
    | deleteOp c => exact delete_measure_inv _ _ h
    | capoOp p => exact ⟨h.1, h.2⟩
    | toggleOp b => exact ⟨h.1, h.2⟩
  · exact editorLoad_inv _ _ _ _

theorem editor_invariant_preservation_witness :
    EditorInv (step loadedStateW Op.addOp) ∧
    EditorInv (step loadedStateW (.loadOp "x.lick" (.object emptyLickFileW))) :=
  ⟨(editor_invariant_preservation loadedStateW Op.addOp "x.lick" emptyLickFileW).1
      (by decide),
   (editor_invariant_preservation loadedStateW Op.addOp "x.lick" emptyLickFileW).2⟩
